import Mathlib

/-
Verification development for the Dolphin CheatsManager cheat-search engine
(Source/Core/DolphinQt/CheatsManager.cpp). Memory regions are modelled as
lists of bytes (each entry a Nat below 256), machine integers as Nat with
explicit reductions modulo powers of two where the code wraps, and the
little-endian host byte layout that the code relies on (memcmp over the raw
storage of a u32) is made explicit.
-/

namespace CheatsManager

/-- Models the constant MAX_RESULTS, the display cap of the match table. -/
def MAX_RESULTS : Nat := 4096

/-- Models ComparisonMask.EQUAL. -/
def EQUAL : Nat := 1

/-- Models ComparisonMask.GREATER_THAN. -/
def GREATER_THAN : Nat := 2

/-- Models ComparisonMask.LESS_THAN. -/
def LESS_THAN : Nat := 4

/-- Models the filters array of FilterCheatSearchResults, indexed by the
current index of the operation combo box: Unknown, Not Equal, Equal,
Greater than, Less than. -/
def filters : List Nat :=
  [EQUAL ||| GREATER_THAN ||| LESS_THAN,
   GREATER_THAN ||| LESS_THAN,
   EQUAL, GREATER_THAN, LESS_THAN]

/-- Models the Result record stored in m_results. The header declaring it is
not part of the sources here, so the value field is modelled from the spec:
last_observed_value is the raw fixed-width bytes captured in the big-endian
order of the region, which is exactly what the memcpy in
FilterCheatSearchResults and OnNewSearchClicked stores into old_value (the
first type-size bytes of its storage). -/
structure Result where
  address : Nat
  old_value : List Nat
deriving Repr, DecidableEq

/-- Reads n bytes of the region buffer starting at a region-relative offset,
modelling the pointer access m_ram.ptr[addr] of the code. Out-of-range reads
yield 0. -/
def readBytes (mem : List Nat) (off n : Nat) : List Nat :=
  (List.range n).map (fun i => mem.getD (off + i) 0)

/-- Models std.memcmp on byte lists: lexicographic three-way comparison of
unsigned bytes. The code only ever compares lists of equal length
(the search type size). -/
def memcmp : List Nat → List Nat → Ordering
  | [], [] => Ordering.eq
  | [], _ :: _ => Ordering.lt
  | _ :: _, [] => Ordering.gt
  | a :: as, b :: bs =>
    if a < b then Ordering.lt
    else if b < a then Ordering.gt
    else memcmp as bs

/-- Models the classification of the memcmp result in
FilterCheatSearchResults: negative becomes LESS_THAN, positive becomes
GREATER_THAN, zero becomes EQUAL. -/
def cmpMask (o : Ordering) : Nat :=
  match o with
  | Ordering.lt => LESS_THAN
  | Ordering.gt => GREATER_THAN
  | Ordering.eq => EQUAL

/-- Models one iteration of the loop body of FilterCheatSearchResults for a
single Result: choose the comparison operand (the candidate old_value when
prev is set, the user value otherwise), memcmp the current bytes at the
candidate offset against it, classify, and keep the candidate, with
old_value overwritten by the just-read bytes, exactly when the
classification bit is set in the filter mask. -/
def filterStep (mem : List Nat) (ts mask : Nat) (prev : Bool)
    (value : List Nat) (r : Result) : Option Result :=
  let v := if prev then r.old_value else value
  let cur := readBytes mem r.address ts
  let cmp_mask := cmpMask (memcmp cur v)
  if cmp_mask &&& mask = 0 then none
  else some { address := r.address, old_value := cur }

/-- Models CheatsManager.FilterCheatSearchResults: the mask is looked up in
the filters array at the operation index, and the surviving results are
collected in input order into a fresh vector that replaces m_results. -/
def FilterCheatSearchResults (mem : List Nat) (ts opIndex : Nat)
    (prev : Bool) (value : List Nat) (rs : List Result) : List Result :=
  rs.filterMap (filterStep mem ts (filters.getD opIndex 0) prev value)

/-- Models Common.swap16 on a 16-bit value: exchanges the two bytes. -/
def swap16 (v : Nat) : Nat := v % 256 * 256 + v / 256 % 256

/-- Models Common.swap32 on a 32-bit value: reverses the four bytes. -/
def swap32 (v : Nat) : Nat :=
  v % 256 * 16777216 + v / 256 % 256 * 65536 + v / 65536 % 256 * 256 +
    v / 16777216 % 256

/-- Models CheatsManager.SwapValue on a u32 value: for type size 2 the low
16 bits are replaced by their byte swap (the u16 store through the casted
pointer touches only the low half on the little-endian host), for type size
4 the whole value is byte swapped, and otherwise the value is unchanged. -/
def SwapValue (ts : Nat) (value : Nat) : Nat :=
  match ts with
  | 2 => value / 65536 * 65536 + swap16 (value % 65536)
  | 4 => swap32 value
  | _ => value

/-- The four bytes of the in-memory representation of a u32 on the
little-endian host, least significant first. -/
def leBytes4 (v : Nat) : List Nat :=
  [v % 256, v / 256 % 256, v / 65536 % 256, v / 16777216 % 256]

/-- The ts bytes that memcmp reads from the address of the u32 value in
FilterCheatSearchResults: the first ts bytes of its little-endian host
storage. -/
def valueBytes (ts : Nat) (val : Nat) : List Nat := (leBytes4 val).take ts

/-- Big-endian decode of a byte list, the numeric value the PowerPC reads
give for the same bytes (HostRead_U8, HostRead_U16, HostRead_U32). -/
def decodeBE (bs : List Nat) : Nat := bs.foldl (fun acc b => acc * 256 + b) 0

/-- Models masking with 0xfffffff0 on a u32 value: clearing the low four
bits aligns down to a 16-byte boundary. -/
def alignDown16 (x : Nat) : Nat := x / 16 * 16

/-- Wrapping u32 subtraction, as performed on the parsed range text minus
m_ram.base. -/
def u32sub (a b : Nat) : Nat :=
  (a % 4294967296 + (4294967296 - b % 4294967296)) % 4294967296

/-- The custom bound computed in OnNewSearchClicked from a parsed address
text: subtract the region base with u32 wraparound, then mask with
0xfffffff0. -/
def toCustom (base addr : Nat) : Nat := alignDown16 (u32sub addr base)

/-- Models the range normalization of OnNewSearchClicked. A parse failure of
either text field is modelled by none; on failure custom_start falls back to
range_start and custom_end to range_end, exactly as the good flags do in the
code. The two conditional updates mirror the two if statements, the second
of which reads the already-updated range_start. -/
def computeRange (size base : Nat) (startText endText : Option Nat) :
    Nat × Nat :=
  let range_start : Nat := 0
  let range_end : Nat := size
  let custom_start : Nat :=
    match startText with
    | some a => toCustom base a
    | none => range_start
  let custom_end : Nat :=
    match endText with
    | some a => toCustom base a
    | none => range_end
  let range_start1 : Nat :=
    if range_start < custom_start ∧ custom_start < custom_end ∧
        custom_start < range_end then custom_start else range_start
  let range_end1 : Nat :=
    if custom_end < range_end ∧ custom_start < custom_end ∧
        range_start1 < custom_end then custom_end else range_end
  (range_start1, range_end1)

/-- Models the population loop of OnNewSearchClicked:
for (addr = range_start; addr != range_end; addr += type_size) push
a Result with the offset and the bytes currently at it. The loop guard
addr != range_end agrees with addr < range_end at every reachable call
site, because both bounds are either 0 and size or aligned to 16 bytes, so
the step (1, 2 or 4) divides the range length and the counter hits the end
bound exactly. -/
def initResults (mem : List Nat) (width start stop : Nat) : List Result :=
  if _h : width = 0 ∨ stop ≤ start then []
  else
    { address := start, old_value := readBytes mem start width } ::
      initResults mem width (start + width) stop
termination_by stop - start
decreasing_by omega

/-- Models CheatsManager.OnNewSearchClicked after the session and pointer
guards: compute the normalized range from the two text fields, then populate
the result vector. The region size is the length of the memory byte list. -/
def OnNewSearchClicked (mem : List Nat) (base width : Nat)
    (startText endText : Option Nat) : List Result :=
  let p := computeRange mem.length base startText endText
  initResults mem width p.1 p.2

/-- Models CheatsManager.NextSearch after parsing: a blank value text sets
the prev flag and leaves val at 0; a parsed value is byte swapped per the
type size before the filter call. -/
def NextSearch (mem : List Nat) (ts opIndex : Nat) (text : Option Nat)
    (rs : List Result) : List Result :=
  match text with
  | none => FilterCheatSearchResults mem ts opIndex true (valueBytes ts 0) rs
  | some v =>
      FilterCheatSearchResults mem ts opIndex false
        (valueBytes ts (SwapValue ts v)) rs

/-- Models CheatsManager.Reset on the candidate set: m_results.clear(). -/
def Reset : List Result := []

/-- The addresses of a result list, in order. -/
def addrs (rs : List Result) : List Nat := rs.map Result.address

/-- Models the status label of m_result_label as far as the display claims
need it: cleared, the too-many-matches message carrying a count, or the
match-count message carrying a count. -/
inductive StatusLabel where
  | cleared : StatusLabel
  | tooMany : Nat → StatusLabel
  | matchCount : Nat → StatusLabel
deriving Repr, DecidableEq

/-- Models the status-label and row-count effect of CheatsManager.Update on
a result set of n candidates, returning the final label, the final row count
of the match table, and the number of rows the decode loop covers. Lines 670
to 676 of the source compute the capped count, set the too-many label and
set the capped row count, but lines 678 and 679 then unconditionally
overwrite the label with the match-count message and the row count with the
full result count, so only the decode loop still uses the capped count. -/
def Update (n : Nat) : StatusLabel × Nat × Nat :=
  if n = 0 then (StatusLabel.cleared, 0, 0)
  else
    let results_display := if MAX_RESULTS < n then MAX_RESULTS else n
    (StatusLabel.matchCount n, n, results_display)

/-- Models the status-label and row-count effect of CheatsManager.TimedUpdate
on n candidates while the label currently shows prev: the too-many label
with the true count and the capped row count are set when over the cap, and
the label is left unchanged otherwise. -/
def TimedUpdate (n : Nat) (prev : StatusLabel) : StatusLabel × Nat :=
  if n = 0 then (StatusLabel.cleared, 0)
  else if MAX_RESULTS < n then (StatusLabel.tooMany n, MAX_RESULTS)
  else (prev, n)

/-- One decoded display row as far as the claims need it: the hex cell (none
models the sentinel dash text), whether a float read of the address was
attempted, and the decimal cell reparsed from the hex text (none models the
sentinel). -/
structure DisplayRow where
  hex : Option Nat
  floatReadAttempted : Bool
  dec : Option Nat
deriving Repr, DecidableEq

/-- The read width of the hex cell switch: 1, 2 and 4 as given, any other
type size falls to the default branch reading 4 bytes. -/
def hexReadSize (ts : Nat) : Nat :=
  match ts with
  | 1 => 1
  | 2 => 2
  | _ => 4

/-- Models one row of the decode loop of CheatsManager.Update: the hex cell
is decoded only when HostIsRAMAddress holds for the absolute address and
shows the sentinel otherwise; the decimal cell reparses the hex text, so the
sentinel propagates to it; the float read (HostRead_F32 on line 728) sits
outside the readable guard and is therefore attempted for every row. -/
def updateRow (isRAMAddress : Bool) (mem : List Nat) (ts off : Nat) :
    DisplayRow :=
  let hex := if isRAMAddress then
      some (decodeBE (readBytes mem off (hexReadSize ts))) else none
  { hex := hex, floatReadAttempted := true, dec := hex }

/-- Models one row of the decode loop of CheatsManager.TimedUpdate: same hex
and decimal policy, but the float read sits inside the readable branch and
only in the 4-byte and default cases of the switch. -/
def timedUpdateRow (isRAMAddress : Bool) (mem : List Nat) (ts off : Nat) :
    DisplayRow :=
  let hex := if isRAMAddress then
      some (decodeBE (readBytes mem off (hexReadSize ts))) else none
  { hex := hex
    floatReadAttempted := isRAMAddress &&
      (match ts with | 1 => false | 2 => false | _ => true)
    dec := hex }

/-- The batch of rows the decode loop of Update produces: one row for each of
the first nDisplay results, the readable flag supplied per absolute address
by the memory subsystem. -/
def updateRows (isRAMAddress : Nat → Bool) (mem : List Nat) (base ts : Nat)
    (rs : List Result) (nDisplay : Nat) : List DisplayRow :=
  (rs.take nDisplay).map
    (fun r => updateRow (isRAMAddress (r.address + base)) mem ts r.address)

/-- The invariant of claim C10 on a candidate list: the address list is
strictly increasing, and every address is a multiple of the element width
and lies in the half-open window. -/
def OrderedInv (rs : List Result) (w lo hi : Nat) : Prop :=
  List.Pairwise (fun a b => a < b) (addrs rs) ∧
  ∀ a ∈ addrs rs, w ∣ a ∧ lo ≤ a ∧ a < hi

/-- A successful filterStep keeps the address of the candidate. -/
theorem filterStep_address (mem : List Nat) (ts mask : Nat) (prev : Bool)
    (value : List Nat) (r s : Result)
    (h : filterStep mem ts mask prev value r = some s) :
    s.address = r.address := by
  simp only [filterStep] at h
  split at h <;> split at h <;> cases h <;> rfl

/-- A successful filterStep overwrites the stored value with the bytes just
read at the candidate offset. -/
theorem filterStep_old_value (mem : List Nat) (ts mask : Nat) (prev : Bool)
    (value : List Nat) (r s : Result)
    (h : filterStep mem ts mask prev value r = some s) :
    s.old_value = readBytes mem r.address ts := by
  simp only [filterStep] at h
  split at h <;> split at h <;> cases h <;> rfl

/-- Filtering through an address-preserving partial map yields a sublist of
the address list. -/
theorem addrs_filterMap_sublist (f : Result → Option Result)
    (hf : ∀ r s, f r = some s → s.address = r.address) (rs : List Result) :
    List.Sublist (addrs (rs.filterMap f)) (addrs rs) := by
  induction rs with
  | nil => simp [addrs]
  | cons r rs ih =>
    cases h : f r with
    | none =>
      simp only [addrs, List.filterMap_cons, h, List.map_cons]
      exact ih.cons r.address
    | some s =>
      simp only [addrs, List.filterMap_cons, h, List.map_cons]
      rw [hf r s h]
      exact ih.cons₂ r.address

/-- The address list of a refine pass is a sublist of the input address
list. -/
theorem addrs_filter_sublist (mem : List Nat) (ts opIndex : Nat)
    (prev : Bool) (value : List Nat) (rs : List Result) :
    List.Sublist (addrs (FilterCheatSearchResults mem ts opIndex prev value rs))
      (addrs rs) :=
  addrs_filterMap_sublist _
    (fun r s h => filterStep_address mem ts _ prev value r s h) rs

/-- Claim C1: one refine pass (FilterCheatSearchResults) returns a subset of
the input candidate set, its cardinality never exceeds that of the input,
and the surviving candidates keep their relative order: for every predicate
index and every comparison operand (explicit value or the prev flag of a
blank value), the address list of the output is a sublist of the address
list of the input, and the output is no longer than the input. -/
theorem c1_refine_subset_ordered (mem : List Nat) (ts opIndex : Nat)
    (prev : Bool) (value : List Nat) (rs : List Result) :
    List.Sublist (addrs (FilterCheatSearchResults mem ts opIndex prev value rs))
      (addrs rs) ∧
    (FilterCheatSearchResults mem ts opIndex prev value rs).length ≤
      rs.length := by
  have hs := addrs_filter_sublist mem ts opIndex prev value rs
  refine ⟨hs, ?_⟩
  have hl := hs.length_le
  simpa [addrs] using hl

/-- The classification mask always intersects the all-bits Unknown mask. -/
theorem cmpMask_land_seven (o : Ordering) : cmpMask o &&& 7 ≠ 0 := by
  cases o <;> decide

/-- With the Unknown mask every candidate passes the filter and comes out
with its stored value refreshed. -/
theorem filterStep_unknown (mem : List Nat) (ts : Nat) (prev : Bool)
    (value : List Nat) (r : Result) :
    filterStep mem ts 7 prev value r =
      some { address := r.address, old_value := readBytes mem r.address ts } := by
  simp only [filterStep]
  rw [if_neg (cmpMask_land_seven _)]

/-- A refine pass at operation index 0 maps every candidate to itself with a
refreshed stored value. -/
theorem filter_unknown_eq_map (mem : List Nat) (ts : Nat) (prev : Bool)
    (value : List Nat) (rs : List Result) :
    FilterCheatSearchResults mem ts 0 prev value rs =
      rs.map (fun r =>
        { address := r.address, old_value := readBytes mem r.address ts }) := by
  unfold FilterCheatSearchResults
  have h7 : filters.getD 0 0 = 7 := by decide
  rw [h7]
  induction rs with
  | nil => rfl
  | cons r rs ih =>
    rw [List.filterMap_cons, filterStep_unknown, List.map_cons, ih]

/-- Claim C6: a refine pass with the Unknown predicate (operation index 0,
whose bitmask has the Equal, GreaterThan and LessThan bits all set) keeps
every candidate, for every memory state, type size, comparison value and
prev flag: the address list is unchanged and the length is unchanged. -/
theorem c6_unknown_never_filters (mem : List Nat) (ts : Nat) (prev : Bool)
    (value : List Nat) (rs : List Result) :
    filters.getD 0 0 = (EQUAL ||| GREATER_THAN ||| LESS_THAN) ∧
    addrs (FilterCheatSearchResults mem ts 0 prev value rs) = addrs rs ∧
    (FilterCheatSearchResults mem ts 0 prev value rs).length = rs.length := by
  refine ⟨by decide, ?_, ?_⟩
  · rw [filter_unknown_eq_map mem ts prev value rs]
    simp [addrs]
  · rw [filter_unknown_eq_map mem ts prev value rs]
    simp

/-- Claim C7: with the prev flag set (blank user input) the comparison
operand of each candidate is its own stored value, so the passed-in value is
irrelevant, NextSearch with a blank text is exactly such a pass, and every
candidate kept by any refine pass leaves with its stored value updated to
the bytes just read, so the next pass compares against this pass's live
bytes. -/
theorem c7_blank_compares_to_prev (mem : List Nat) (ts opIndex : Nat)
    (rs : List Result) (v w junk : List Nat) :
    FilterCheatSearchResults mem ts opIndex true v rs =
      FilterCheatSearchResults mem ts opIndex true w rs ∧
    NextSearch mem ts opIndex none rs =
      FilterCheatSearchResults mem ts opIndex true junk rs ∧
    ∀ (prev : Bool) (val : List Nat) (r : Result),
      r ∈ FilterCheatSearchResults mem ts opIndex prev val rs →
      r.old_value = readBytes mem r.address ts := by
  have hval : ∀ v2 w2 : List Nat,
      FilterCheatSearchResults mem ts opIndex true v2 rs =
        FilterCheatSearchResults mem ts opIndex true w2 rs := by
    intro v2 w2
    unfold FilterCheatSearchResults
    congr 1
  refine ⟨hval v w, ?_, ?_⟩
  · unfold NextSearch
    exact hval (valueBytes ts 0) junk
  · intro prev val r hr
    unfold FilterCheatSearchResults at hr
    rcases List.mem_filterMap.mp hr with ⟨a, _, ha⟩
    have h1 := filterStep_old_value mem ts _ prev val a r ha
    have h2 := filterStep_address mem ts _ prev val a r ha
    rw [h1, h2]

/-- Witness for claim C7 at a concrete input. -/
theorem c7_blank_compares_to_prev_witness :
    FilterCheatSearchResults [1] 1 0 true [5] [⟨0, [0]⟩] =
      FilterCheatSearchResults [1] 1 0 true [9] [⟨0, [0]⟩] ∧
    (⟨0, [1]⟩ : Result).old_value = readBytes [1] 0 1 := by
  refine ⟨(c7_blank_compares_to_prev [1] 1 0 [⟨0, [0]⟩] [5] [9] [7]).1, ?_⟩
  exact (c7_blank_compares_to_prev [1] 1 0 [⟨0, [0]⟩] [5] [9] [7]).2.2
    true [5] ⟨0, [1]⟩ (by decide)

/-- Folding bytes from an arbitrary accumulator splits into the accumulator
part and the fold from zero. -/
theorem foldl_byte_aux (bs : List Nat) (acc : Nat) :
    List.foldl (fun a b => a * 256 + b) acc bs =
      acc * 256 ^ bs.length + List.foldl (fun a b => a * 256 + b) 0 bs := by
  induction bs generalizing acc with
  | nil => simp
  | cons b bs ih =>
    simp only [List.foldl_cons, List.length_cons]
    rw [ih (acc * 256 + b), ih (0 * 256 + b)]
    ring

/-- Big-endian decode of a cons: the head is weighted by 256 to the tail
length. -/
theorem decodeBE_cons (b : Nat) (bs : List Nat) :
    decodeBE (b :: bs) = b * 256 ^ bs.length + decodeBE bs := by
  simp only [decodeBE, List.foldl_cons]
  rw [foldl_byte_aux]
  ring

/-- Big-endian decode of a byte list is bounded by 256 to its length. -/
theorem decodeBE_lt (bs : List Nat) (h : ∀ x ∈ bs, x < 256) :
    decodeBE bs < 256 ^ bs.length := by
  induction bs with
  | nil => simp [decodeBE]
  | cons b bs ih =>
    rw [decodeBE_cons]
    have hb : b < 256 := h b (by simp)
    have ht : decodeBE bs < 256 ^ bs.length :=
      ih (fun x hx => h x (by simp [hx]))
    have h1 : b * 256 ^ bs.length + decodeBE bs < (b + 1) * 256 ^ bs.length := by
      rw [Nat.succ_mul]
      omega
    have h2 : (b + 1) * 256 ^ bs.length ≤ 256 * 256 ^ bs.length :=
      Nat.mul_le_mul_right _ (by omega)
    have h3 : 256 * 256 ^ bs.length = 256 ^ (b :: bs).length := by
      rw [List.length_cons, pow_succ]
      ring
    omega

/-- Comparison of natural numbers is invariant under adding a common left
summand. -/
theorem compare_add_left_nat (c m n : Nat) :
    compare (c + m) (c + n) = compare m n := by
  rcases lt_trichotomy m n with h | h | h
  · rw [compare_lt_iff_lt.mpr h,
      compare_lt_iff_lt.mpr (show c + m < c + n by omega)]
  · subst h
    exact (compare_eq_iff_eq.mpr rfl).trans (compare_eq_iff_eq.mpr rfl).symm
  · rw [compare_gt_iff_gt.mpr h,
      compare_gt_iff_gt.mpr (show c + n < c + m by omega)]

/-- Lexicographic byte comparison of two equal-length byte lists agrees with
numeric comparison of their big-endian decodes: the memcmp trick of the
filter loop is a valid ordering for same-width big-endian integers. -/
theorem memcmp_eq_compare (a : List Nat) : ∀ b : List Nat,
    a.length = b.length → (∀ x ∈ a, x < 256) → (∀ x ∈ b, x < 256) →
    memcmp a b = compare (decodeBE a) (decodeBE b) := by
  induction a with
  | nil =>
    intro b hlen _ _
    cases b with
    | nil => rfl
    | cons y ys => simp at hlen
  | cons x xs ih =>
    intro b hlen ha hb
    cases b with
    | nil => simp at hlen
    | cons y ys =>
      have hlen2 : xs.length = ys.length := by simpa using hlen
      have hx : x < 256 := ha x (by simp)
      have hxs : ∀ z ∈ xs, z < 256 := fun z hz => ha z (by simp [hz])
      have hys : ∀ z ∈ ys, z < 256 := fun z hz => hb z (by simp [hz])
      have hdx : decodeBE xs < 256 ^ ys.length := by
        rw [← hlen2]; exact decodeBE_lt xs hxs
      have hdy : decodeBE ys < 256 ^ ys.length := decodeBE_lt ys hys
      rw [decodeBE_cons, decodeBE_cons, hlen2]
      simp only [memcmp]
      by_cases hlt : x < y
      · rw [if_pos hlt]
        have h1 : x * 256 ^ ys.length + decodeBE xs <
            (x + 1) * 256 ^ ys.length := by
          rw [Nat.succ_mul]; omega
        have h2 : (x + 1) * 256 ^ ys.length ≤ y * 256 ^ ys.length :=
          Nat.mul_le_mul_right _ (by omega)
        symm
        rw [compare_lt_iff_lt]
        omega
      · rw [if_neg hlt]
        by_cases hgt : y < x
        · rw [if_pos hgt]
          have h1 : y * 256 ^ ys.length + decodeBE ys <
              (y + 1) * 256 ^ ys.length := by
            rw [Nat.succ_mul]; omega
          have h2 : (y + 1) * 256 ^ ys.length ≤ x * 256 ^ ys.length :=
            Nat.mul_le_mul_right _ (by omega)
          symm
          rw [compare_gt_iff_gt]
          omega
        · rw [if_neg hgt]
          have hxy : x = y := by omega
          subst hxy
          rw [compare_add_left_nat]
          exact ih ys hlen2 hxs hys

/-- Claim C3: the filter loop computes a three-way ordering of the current
bytes at the candidate offset against the comparison operand by byte-wise
comparison, which agrees with numeric comparison of same-width big-endian
integers; a candidate passes exactly when the classification bit is set in
the predicate mask; and on candidates at offsets 0 and 4 holding 5 and 9
with unchanged memory, the Equal pass (operation index 2) with operand 5
keeps exactly the candidate at offset 0. -/
theorem c3_bytewise_three_way (a b : List Nat) (hlen : a.length = b.length)
    (ha : ∀ x ∈ a, x < 256) (hb : ∀ x ∈ b, x < 256) :
    memcmp a b = compare (decodeBE a) (decodeBE b) ∧
    (∀ (mem : List Nat) (ts mask : Nat) (prev : Bool) (v : List Nat)
        (r : Result),
      (filterStep mem ts mask prev v r).isSome = true ↔
        cmpMask (memcmp (readBytes mem r.address ts)
          (if prev then r.old_value else v)) &&& mask ≠ 0) ∧
    FilterCheatSearchResults [0, 0, 0, 5, 0, 0, 0, 9] 4 2 false
        (valueBytes 4 (SwapValue 4 5)) [⟨0, [0, 0, 0, 5]⟩, ⟨4, [0, 0, 0, 9]⟩] =
      [⟨0, [0, 0, 0, 5]⟩] := by
  refine ⟨memcmp_eq_compare a b hlen ha hb, ?_, by decide⟩
  intro mem ts mask prev v r
  simp only [filterStep]
  split
  next h => simp [h]
  next h => simp [h]

/-- Witness for claim C3 at a concrete input. -/
theorem c3_bytewise_three_way_witness :
    ([0, 1] : List Nat).length = ([0, 2] : List Nat).length ∧
    memcmp [0, 1] [0, 2] = compare (decodeBE [0, 1]) (decodeBE [0, 2]) := by
  exact ⟨by decide,
    (c3_bytewise_three_way [0, 1] [0, 2] (by decide) (by decide)
      (by decide)).1⟩

/-- Byte extraction from a four-byte big-endian style composition. -/
theorem bytes4_extract (b0 b1 b2 b3 : Nat) (h0 : b0 < 256) (h1 : b1 < 256)
    (h2 : b2 < 256) (h3 : b3 < 256) :
    (((b0 * 256 + b1) * 256 + b2) * 256 + b3) % 256 = b3 ∧
    (((b0 * 256 + b1) * 256 + b2) * 256 + b3) / 256 % 256 = b2 ∧
    (((b0 * 256 + b1) * 256 + b2) * 256 + b3) / 65536 % 256 = b1 ∧
    (((b0 * 256 + b1) * 256 + b2) * 256 + b3) / 16777216 % 256 = b0 :=
  ⟨by omega, by omega, by omega, by omega⟩

/-- Claim C8: encoding a numeric value representable at the chosen element
width through the byte-swap step of NextSearch and SwapValue, and then
decoding the resulting bytes big-endian at the same width, recovers the
original value. -/
theorem c8_encode_decode_roundtrip (ts val : Nat)
    (hts : ts = 1 ∨ ts = 2 ∨ ts = 4) (hval : val < 256 ^ ts) :
    decodeBE (valueBytes ts (SwapValue ts val)) = val := by
  rcases hts with h | h | h <;> subst h
  · norm_num at hval
    simp only [valueBytes, SwapValue, leBytes4, decodeBE, List.take,
      List.foldl]
    omega
  · norm_num at hval
    obtain ⟨b0, b1, hvb, hb0, hb1⟩ :
        ∃ b0 b1, val = b1 * 256 + b0 ∧ b0 < 256 ∧ b1 < 256 :=
      ⟨val % 256, val / 256, by omega, by omega, by omega⟩
    subst hvb
    have hs : SwapValue 2 (b1 * 256 + b0) = b0 * 256 + b1 := by
      simp only [SwapValue, swap16]
      omega
    rw [hs]
    simp only [valueBytes, leBytes4, decodeBE, List.take, List.foldl]
    omega
  · norm_num at hval
    obtain ⟨b0, b1, b2, b3, hvb, hb0, hb1, hb2, hb3⟩ :
        ∃ b0 b1 b2 b3, val = ((b3 * 256 + b2) * 256 + b1) * 256 + b0 ∧
          b0 < 256 ∧ b1 < 256 ∧ b2 < 256 ∧ b3 < 256 :=
      ⟨val % 256, val / 256 % 256, val / 65536 % 256, val / 16777216,
        by omega, by omega, by omega, by omega, by omega⟩
    subst hvb
    have hs : SwapValue 4 (((b3 * 256 + b2) * 256 + b1) * 256 + b0) =
        ((b0 * 256 + b1) * 256 + b2) * 256 + b3 := by
      simp only [SwapValue, swap32]
      obtain ⟨e1, e2, e3, e4⟩ := bytes4_extract b3 b2 b1 b0 hb3 hb2 hb1 hb0
      rw [e1, e2, e3, e4]
      ring
    rw [hs]
    simp only [valueBytes, leBytes4, decodeBE, List.take, List.foldl]
    obtain ⟨e1, e2, e3, e4⟩ := bytes4_extract b0 b1 b2 b3 hb0 hb1 hb2 hb3
    rw [e1, e2, e3, e4]
    ring

/-- Witness for claim C8: encoding decimal 100 at width 2 and decoding
yields 100. -/
theorem c8_encode_decode_roundtrip_witness :
    (2 = 1 ∨ 2 = 2 ∨ 2 = 4) ∧ 100 < 256 ^ 2 ∧
    decodeBE (valueBytes 2 (SwapValue 2 100)) = 100 :=
  ⟨by decide, by decide, c8_encode_decode_roundtrip 2 100 (by decide)
    (by decide)⟩

/-- Every custom bound is aligned down to a 16-byte boundary. -/
theorem toCustom_dvd16 (base a : Nat) : 16 ∣ toCustom base a := by
  unfold toCustom alignDown16
  exact dvd_mul_left 16 _

/-- The normalized range is well formed: ordered, inside the region, and
with a 16-byte aligned start. -/
theorem computeRange_bounds (size base : Nat) (sa ea : Option Nat) :
    (computeRange size base sa ea).1 ≤ (computeRange size base sa ea).2 ∧
    (computeRange size base sa ea).2 ≤ size ∧
    16 ∣ (computeRange size base sa ea).1 := by
  rcases sa with _ | a <;> rcases ea with _ | b <;>
    simp only [computeRange, toCustom, alignDown16, u32sub] <;>
    split_ifs <;> refine ⟨?_, ?_, ?_⟩ <;> omega

/-- Two malformed bounds normalize to the full range. -/
theorem computeRange_none (size base : Nat) :
    computeRange size base none none = (0, size) := by
  simp [computeRange]

/-- Bounds that both map outside the region normalize to the full range. -/
theorem computeRange_outside (size base a b : Nat)
    (ha : size ≤ toCustom base a) (hb : size ≤ toCustom base b) :
    computeRange size base (some a) (some b) = (0, size) := by
  simp only [computeRange]
  split_ifs <;> first | rfl | (exfalso; omega)

/-- Claim C5: the user-supplied bounds are clamped into the region: the
normalized range is always ordered and contained in the region, malformed
bounds fall back to the full range, bounds that both map outside the region
behave identically to no bounds at all, and the accepted start bound is
always aligned down to a 16-byte boundary (the range start is divisible by
16). -/
theorem c5_bounds_normalization (size base : Nat) (sa ea : Option Nat) :
    (computeRange size base sa ea).1 ≤ (computeRange size base sa ea).2 ∧
    (computeRange size base sa ea).2 ≤ size ∧
    16 ∣ (computeRange size base sa ea).1 ∧
    computeRange size base none none = (0, size) ∧
    (∀ a b : Nat, size ≤ toCustom base a → size ≤ toCustom base b →
      computeRange size base (some a) (some b) =
        computeRange size base none none) := by
  refine ⟨(computeRange_bounds size base sa ea).1,
    (computeRange_bounds size base sa ea).2.1,
    (computeRange_bounds size base sa ea).2.2,
    computeRange_none size base, ?_⟩
  intro a b ha hb
  rw [computeRange_none size base]
  exact computeRange_outside size base a b ha hb

/-- Witness for claim C5 at a concrete input: both bounds beyond the region
of size 16 give the same result as no bounds. -/
theorem c5_bounds_normalization_witness :
    16 ≤ toCustom 0 32 ∧ 16 ≤ toCustom 0 48 ∧
    computeRange 16 0 (some 32) (some 48) = computeRange 16 0 none none := by
  refine ⟨by decide, by decide, ?_⟩
  exact (c5_bounds_normalization 16 0 (some 32) (some 48)).2.2.2.2 32 48
    (by decide) (by decide)

/-- Membership in the address list produced by the population loop: exactly
the stride multiples from start that lie below stop. -/
theorem mem_addrs_initResults (mem : List Nat) (width start stop o : Nat)
    (hw : 0 < width) :
    o ∈ addrs (initResults mem width start stop) ↔
      start ≤ o ∧ o < stop ∧ width ∣ (o - start) := by
  rw [initResults.eq_def]
  split
  next h =>
    simp only [addrs, List.map_nil, List.not_mem_nil, false_iff]
    rintro ⟨h1, h2, -⟩
    omega
  next h =>
    have hrec := mem_addrs_initResults mem width (start + width) stop o hw
    simp only [addrs, List.map_cons, List.mem_cons] at hrec ⊢
    rw [hrec]
    constructor
    · rintro (rfl | ⟨h1, h2, k, hk⟩)
      · exact ⟨Nat.le_refl _, by omega, ⟨0, by omega⟩⟩
      · exact ⟨by omega, h2, ⟨k + 1, by rw [Nat.mul_succ]; omega⟩⟩
    · rintro ⟨h1, h2, k, hk⟩
      rcases Nat.eq_zero_or_pos k with rfl | hk0
      · left; omega
      · right
        have hwk : width ≤ width * k := Nat.le_mul_of_pos_right width hk0
        have hk1 : width * k = width * (k - 1) + width := by
          cases k with
          | zero => omega
          | succ k2 => simp [Nat.mul_succ]
        refine ⟨by omega, h2, ⟨k - 1, by omega⟩⟩
termination_by stop - start
decreasing_by omega

/-- The population loop emits strictly increasing addresses. -/
theorem pairwise_addrs_initResults (mem : List Nat) (width start stop : Nat)
    (hw : 0 < width) :
    List.Pairwise (fun a b => a < b)
      (addrs (initResults mem width start stop)) := by
  rw [initResults.eq_def]
  split
  next h => simp [addrs]
  next h =>
    simp only [addrs, List.map_cons]
    rw [List.pairwise_cons]
    constructor
    · intro a ha
      have hmem := mem_addrs_initResults mem width (start + width) stop a hw
      simp only [addrs] at hmem
      obtain ⟨h1, h2, -⟩ := hmem.mp ha
      omega
    · have hp := pairwise_addrs_initResults mem width (start + width) stop hw
      simpa [addrs] using hp
termination_by stop - start
decreasing_by omega

/-- Every entry emitted by the population loop stores the bytes read at its
own offset. -/
theorem old_value_initResults (mem : List Nat) (width start stop : Nat) :
    ∀ r ∈ initResults mem width start stop,
      r.old_value = readBytes mem r.address width := by
  intro r hr
  rw [initResults.eq_def] at hr
  split at hr
  · simp at hr
  next h =>
    rcases List.mem_cons.mp hr with rfl | hmem
    · rfl
    · exact old_value_initResults mem width (start + width) stop r hmem
termination_by stop - start
decreasing_by omega

/-- Claim C4: with the full range (no custom bounds) the population loop
creates exactly one candidate per width-aligned offset below the region
size, each storing the raw bytes currently at its offset, and in the
concrete scenario of a 16-byte region with element width 4 and no bounds the
offsets are exactly 0, 4, 8 and 12. -/
theorem c4_initialize_population (mem : List Nat) (width stop o : Nat)
    (hw : 0 < width) :
    (o ∈ addrs (initResults mem width 0 stop) ↔ o < stop ∧ width ∣ o) ∧
    (addrs (initResults mem width 0 stop)).Nodup ∧
    (∀ r ∈ initResults mem width 0 stop,
      r.old_value = readBytes mem r.address width) ∧
    addrs (OnNewSearchClicked (List.range 16) 2147483648 4 none none) =
      [0, 4, 8, 12] := by
  refine ⟨?_,
    (pairwise_addrs_initResults mem width 0 stop hw).imp Nat.ne_of_lt,
    old_value_initResults mem width 0 stop, ?_⟩
  · rw [mem_addrs_initResults mem width 0 stop o hw]
    constructor
    · rintro ⟨-, h2, h3⟩
      exact ⟨h2, by simpa using h3⟩
    · rintro ⟨h1, h2⟩
      exact ⟨Nat.zero_le _, h1, by simpa using h2⟩
  · simp [OnNewSearchClicked, computeRange, initResults, addrs, readBytes]

/-- Witness for claim C4 at a concrete input. -/
theorem c4_initialize_population_witness :
    0 < 4 ∧ (8 ∈ addrs (initResults [] 4 0 16) ↔ 8 < 16 ∧ 4 ∣ 8) :=
  ⟨by decide, (c4_initialize_population [] 4 16 8 (by decide)).1⟩

/-- Claim C10: for an element width chosen by GetTypeSize (1, 2 or 4) and
the range computed at initialization (contained in the region), the
candidate set produced by the population loop has strictly increasing
offsets, all multiples of the element width and all inside the window; a
refine pass preserves this invariant (it removes entries without
reordering); and Reset re-establishes it trivially on the empty set. -/
theorem c10_candidate_invariant (mem : List Nat) (size base w : Nat)
    (sa ea : Option Nat) (hw : w = 1 ∨ w = 2 ∨ w = 4) :
    (computeRange size base sa ea).2 ≤ size ∧
    OrderedInv
      (initResults mem w (computeRange size base sa ea).1
        (computeRange size base sa ea).2)
      w (computeRange size base sa ea).1 (computeRange size base sa ea).2 ∧
    (∀ (ts opIndex : Nat) (prev : Bool) (val : List Nat) (rs : List Result)
        (lo hi : Nat),
      OrderedInv rs w lo hi →
      OrderedInv (FilterCheatSearchResults mem ts opIndex prev val rs)
        w lo hi) ∧
    (∀ lo hi : Nat, OrderedInv Reset w lo hi) := by
  have hw0 : 0 < w := by omega
  have hw16 : w ∣ 16 := by rcases hw with rfl | rfl | rfl <;> decide
  obtain ⟨hle, hsz, hdvd⟩ := computeRange_bounds size base sa ea
  refine ⟨hsz, ?_, ?_, ?_⟩
  · constructor
    · exact pairwise_addrs_initResults mem w _ _ hw0
    · intro a ha
      obtain ⟨h1, h2, h3⟩ :=
        (mem_addrs_initResults mem w (computeRange size base sa ea).1
          (computeRange size base sa ea).2 a hw0).mp ha
      have hwlo : w ∣ (computeRange size base sa ea).1 :=
        dvd_trans hw16 hdvd
      refine ⟨?_, h1, h2⟩
      have heq : (computeRange size base sa ea).1 +
          (a - (computeRange size base sa ea).1) = a := by omega
      rw [← heq]
      exact dvd_add hwlo h3
  · intro ts opIndex prev val rs lo hi hinv
    obtain ⟨hp, hm⟩ := hinv
    have hs := addrs_filter_sublist mem ts opIndex prev val rs
    exact ⟨hp.sublist hs, fun a ha => hm a (hs.subset ha)⟩
  · intro lo hi
    exact ⟨List.Pairwise.nil, by simp [Reset, addrs]⟩

/-- Witness for claim C10 at a concrete input. -/
theorem c10_candidate_invariant_witness :
    (4 = 1 ∨ 4 = 2 ∨ 4 = 4) ∧ (computeRange 16 0 none none).2 ≤ 16 :=
  ⟨by decide, (c10_candidate_invariant [] 16 0 4 none none (by decide)).1⟩

/-- Claim C2 (code bug): the decode loop of Update covers at most
MAX_RESULTS rows, but with 10000 candidates the final status label of
Update is the plain match-count message with the full count (line 678
unconditionally overwrites the too-many message set on line 673) and the
final row count is the full 10000 (line 679 overwrites the capped count set
on line 676), while TimedUpdate keeps the too-many label with the true
count and the capped row count exactly as the claim states. -/
theorem c2_update_overwrites_cap :
    (∀ n : Nat, (Update n).2.2 ≤ MAX_RESULTS) ∧
    Update 10000 = (StatusLabel.matchCount 10000, 10000, 4096) ∧
    TimedUpdate 10000 StatusLabel.cleared =
      (StatusLabel.tooMany 10000, 4096) := by
  refine ⟨?_, by decide, by decide⟩
  intro n
  unfold Update MAX_RESULTS
  split
  · simp
  · dsimp only
    split <;> omega

/-- Claim C9 (code bug): for a row whose absolute address is not readable,
both Update and TimedUpdate put the sentinel in the hex cell and the decimal
cell inherits the sentinel from the reparse, and an unreadable row never
aborts the batch (the row list keeps one row per displayed candidate
whatever the readable flags say), but the decode loop of Update performs the
float read unconditionally (HostRead_F32 outside the readable guard on line
728), so a float read is attempted even for the unreadable row, where
TimedUpdate attempts none. -/
theorem c9_unreadable_row_sentinel :
    updateRow false [] 4 0 =
      { hex := none, floatReadAttempted := true, dec := none } ∧
    timedUpdateRow false [] 4 0 =
      { hex := none, floatReadAttempted := false, dec := none } ∧
    (∀ (f : Nat → Bool) (mem : List Nat) (base ts nD : Nat)
        (rs : List Result),
      (updateRows f mem base ts rs nD).length = min nD rs.length) := by
  refine ⟨by decide, by decide, ?_⟩
  intro f mem base ts nD rs
  simp [updateRows]

end CheatsManager
